import Mathlib

/-!
The validator of go-validator, `validator/validator.go`

A shallow embedding of the protobuf message validator and the properties of
its traversal, its per-kind rules and its violation accumulator.

Modelling conventions.

* A `protoreflect.Message` is a finite tree: the full name of its descriptor,
  its `IsValid()` flag (false for the placeholder that `Get` returns for an
  unset message field, and for a nil element of a repeated field), and its
  fields in descriptor order, each paired with the value `msg.Get(desc)`.
* A field carries the value shape that the protobuf runtime guarantees for
  its kind: a string, an integer, one message, or a list of messages.
  Repeated scalar fields and map fields are outside the model (the header of
  the source lists them as not supported yet).
* `int32` / `int64` / `int` quantities are `Int`; the code only compares and
  prints them (no arithmetic), so no wrap-around can occur.
* Go's `len` on a string is its length in bytes: `len s = s.utf8ByteSize`.
* `fmt.Sprintf` with `%s` and `%d` is string concatenation with decimal
  printing.
* A Go `error` is `Option String` (`none` is `nil`), a `*violation` is
  `Option Violation` (`none` is `nil`).
-/

namespace Validator

/-! ## Data model -/

/-- The record `errdetails.BadRequest_FieldViolation`. -/
structure Violation where
  Field : String
  Description : String
deriving DecidableEq, Repr

/-- The enumeration `protoreflect.Kind`. -/
inductive Kind where
  | BoolKind | EnumKind | Int32Kind | Sint32Kind | Uint32Kind
  | Int64Kind | Sint64Kind | Uint64Kind | Sfixed32Kind | Fixed32Kind
  | FloatKind | Sfixed64Kind | Fixed64Kind | DoubleKind
  | StringKind | BytesKind | MessageKind | GroupKind
deriving DecidableEq, Repr

/-- The kinds that no `case` of the switch in `GetViolations` names. -/
inductive OtherKind where
  | BoolKind | EnumKind | Sint32Kind | Uint32Kind
  | Sint64Kind | Uint64Kind | Sfixed32Kind | Fixed32Kind
  | FloatKind | Sfixed64Kind | Fixed64Kind | DoubleKind
  | BytesKind | GroupKind
deriving DecidableEq, Repr

/-- Embedding of the kinds without a `case` into `protoreflect.Kind`. -/
def OtherKind.toKind : OtherKind → Kind
  | .BoolKind => .BoolKind
  | .EnumKind => .EnumKind
  | .Sint32Kind => .Sint32Kind
  | .Uint32Kind => .Uint32Kind
  | .Sint64Kind => .Sint64Kind
  | .Uint64Kind => .Uint64Kind
  | .Sfixed32Kind => .Sfixed32Kind
  | .Fixed32Kind => .Fixed32Kind
  | .FloatKind => .FloatKind
  | .Sfixed64Kind => .Sfixed64Kind
  | .Fixed64Kind => .Fixed64Kind
  | .DoubleKind => .DoubleKind
  | .BytesKind => .BytesKind
  | .GroupKind => .GroupKind

/-- What the code reads from a `protoreflect.FieldDescriptor` and from the
extensions of its `FieldOptions`: `Name()`, `FullName()`, and the extensions
`pb.E_Required`, `pb.E_Allowed` (`none` is the nil `*pb.StringList`, `some l`
a list whose `List` field is `l`), `pb.E_Lmin`, `pb.E_Lmax`, `pb.E_Min`,
`pb.E_Max`. -/
structure FieldDescriptor where
  Name : String
  FullName : String
  Required : Bool
  Allowed : Option (List String)
  Lmin : Int
  Lmax : Int
  Min : Int
  Max : Int
deriving DecidableEq, Repr

mutual
/-- A `protoreflect.Message`: `Descriptor().FullName()`, `IsValid()` and the
fields in descriptor order. -/
inductive Message where
  | mk (fullName : String) (isValid : Bool) (fields : List Field)
/-- One field of a message together with its value `msg.Get(desc)`; the
constructor is `desc.Kind()` and, for the message kind, `desc.IsList()`. -/
inductive Field where
  | message (desc : FieldDescriptor) (value : Message)
  | messageList (desc : FieldDescriptor) (values : List Message)
  | string (desc : FieldDescriptor) (value : String)
  | int32 (desc : FieldDescriptor) (value : Int)
  | int64 (desc : FieldDescriptor) (value : Int)
  | other (desc : FieldDescriptor) (kind : OtherKind)
end

/-- `msg.Descriptor().FullName()`. -/
def Message.FullName : Message → String
  | .mk fullName _ _ => fullName

/-- `msg.IsValid()`. -/
def Message.IsValid : Message → Bool
  | .mk _ isValid _ => isValid

/-- The fields of `msg.Descriptor().Fields()`, each with its value. -/
def Message.Fields : Message → List Field
  | .mk _ _ fields => fields

/-- `desc.Kind()`. -/
def Field.Kind : Field → Kind
  | .message _ _ => .MessageKind
  | .messageList _ _ => .MessageKind
  | .string _ _ => .StringKind
  | .int32 _ _ => .Int32Kind
  | .int64 _ _ => .Int64Kind
  | .other _ k => k.toKind

/-- `desc.IsList()`. -/
def Field.IsList : Field → Bool
  | .messageList _ _ => true
  | _ => false

/-- The descriptor of a field. -/
def Field.desc : Field → FieldDescriptor
  | .message d _ => d
  | .messageList d _ => d
  | .string d _ => d
  | .int32 d _ => d
  | .int64 d _ => d
  | .other d _ => d

/-! ## The code -/

/-- Go's `len` on a string: the number of bytes. -/
def len (s : String) : Nat := s.utf8ByteSize

/-- `mandatoryViolation` (lines 152-158). -/
def mandatoryViolation (f : String) : Violation :=
  { Field := f, Description := "mandatory field not provided" }

/-- `notAllowedViolation` (lines 160-166). -/
def notAllowedViolation (n : String) (val : String) : Violation :=
  { Field := n, Description := "Value (" ++ val ++ ") not allowed" }

/-- `searchSlice` (lines 168-175). -/
def searchSlice : List String → String → Bool
  | [], _ => false
  | v :: slice, s => if s = v then true else searchSlice slice s

/-- The error value built in `appendViolations`. -/
def maxViolationsReached : String := "Max Violations reached"

/-- The `for ... range v` loop of `appendViolations` (lines 141-148), with the
local variables `vl` and `err` as state. -/
def appendViolationsLoop (vl : List Violation) (err : Option String) :
    List (Option Violation) → List Violation × Option String
  | [] => (vl, err)
  | none :: v => appendViolationsLoop vl err v
  | some val :: v =>
    appendViolationsLoop (vl ++ [val])
      (if (vl ++ [val]).length > 3 then some maxViolationsReached else err) v

/-- `appendViolations` (lines 139-150). -/
def appendViolations (vl : List Violation) (v : List (Option Violation)) :
    List Violation × Option String :=
  appendViolationsLoop vl none v

/-- The `StringKind` case up to the call of `appendViolations` (lines 65-92):
the final value of `vptr`. -/
def stringViolation (desc : FieldDescriptor) (value : String) : Option Violation :=
  let vptr : Option Violation :=
    if desc.Required = true ∧ len value = 0 then some (mandatoryViolation desc.FullName)
    else none
  match desc.Allowed, decide (len value ≠ 0) with
  | some allowedList, true =>
    if searchSlice allowedList value = false then
      some (notAllowedViolation desc.Name value)
    else vptr
  | _, _ =>
    if len value ≠ 0 then
      if (desc.Lmin ≠ 0 ∧ (len value : Int) < desc.Lmin) ∨
          (desc.Lmax ≠ 0 ∧ (len value : Int) > desc.Lmax) then
        some { Field := desc.Name,
               Description := "Invalid Length, have (" ++ toString (len value) ++
                 "), want min(" ++ toString desc.Lmin ++ "), max (" ++
                 toString desc.Lmax ++ ")" }
      else vptr
    else vptr

/-- The `Int64Kind` case up to the call of `appendViolations` (lines 100-112):
the final value of `vptr`. -/
def int64Violation (desc : FieldDescriptor) (value : Int) : Option Violation :=
  if desc.Required = true ∧ value = 0 then some (mandatoryViolation desc.FullName)
  else if value ≠ 0 then
    if (desc.Min ≠ 0 ∧ value < desc.Min) ∨ (desc.Max ≠ 0 ∧ value > desc.Max) then
      some { Field := desc.Name,
             Description := "Invalid Value, have (" ++ toString value ++
               "), want min(" ++ toString desc.Min ++ "), max (" ++
               toString desc.Max ++ ")" }
    else none
  else none

mutual
/-- `GetViolations` (lines 32-119). -/
def GetViolations : Message → List Violation
  | .mk _ _ fields => fieldsLoop [] fields
/-- The loop over the fields in `GetViolations` (lines 40-117), from a given
value of `vlist`; the result is what `GetViolations` returns. -/
def fieldsLoop (vlist : List Violation) : List Field → List Violation
  | [] => vlist
  | .message desc value :: rest =>
    if desc.Required = true then
      match verifyMessage vlist value with
      | (vl, some _) => vl
      | (vl, none) => fieldsLoop vl rest
    else fieldsLoop vlist rest
  | .messageList desc values :: rest =>
    if desc.Required = true then
      match listLoop vlist values with
      | (vl, some _) => vl
      | (vl, none) => fieldsLoop vl rest
    else fieldsLoop vlist rest
  | .string desc value :: rest =>
    match appendViolations vlist [stringViolation desc value] with
    | (vl, some _) => vl
    | (vl, none) => fieldsLoop vl rest
  | .int32 _ _ :: rest => fieldsLoop vlist rest
  | .int64 desc value :: rest =>
    match appendViolations vlist [int64Violation desc value] with
    | (vl, some _) => vl
    | (vl, none) => fieldsLoop vl rest
  | .other _ _ :: rest => fieldsLoop vlist rest
/-- The loop over the elements of a required repeated message field (lines
50-56): the value of `vlist` when it ends, and the error that ended it. -/
def listLoop (vlist : List Violation) : List Message → List Violation × Option String
  | [] => (vlist, none)
  | va :: iv =>
    match verifyMessage vlist va with
    | (vl, some err) => (vl, some err)
    | (vl, none) => listLoop vl iv
/-- `verifyMessage` (lines 121-137). The call `GetViolations(v.Message())` is
written as the loop it consists of, which keeps the recursion structural;
`verifyMessage_eq` gives the form of the source. -/
def verifyMessage (vl : List Violation) : Message → List Violation × Option String
  | .mk fullName isValid fields =>
    if isValid = true then
      match appendViolations vl ((fieldsLoop [] fields).map some) with
      | (vl1, some err) => (vl1, some err)
      | (vl1, none) => (vl1, none)
    else
      match appendViolations vl [some (mandatoryViolation fullName)] with
      | (vl1, some err) => (vl1, some err)
      | (vl1, none) => (vl1, none)
end

/-! ## Reference definitions for the refinement statements -/

/-- The violation that the rule of a field's kind produces for a field that
is not of the message kind: the string rule, the 64-bit integer rule, and
nothing for every other kind. -/
def scalarRule : Field → Option Violation
  | .string desc value => stringViolation desc value
  | .int64 desc value => int64Violation desc value
  | _ => none

/-! ## Definitions used by the proofs -/

/-- One iteration of the fields loop: the value of `vlist` after the field and
the error that makes `GetViolations` return at once. -/
def fieldStep (vlist : List Violation) : Field → List Violation × Option String
  | .message desc value =>
    if desc.Required = true then verifyMessage vlist value else (vlist, none)
  | .messageList desc values =>
    if desc.Required = true then listLoop vlist values else (vlist, none)
  | .string desc value => appendViolations vlist [stringViolation desc value]
  | .int32 _ _ => (vlist, none)
  | .int64 desc value => appendViolations vlist [int64Violation desc value]
  | .other _ _ => (vlist, none)

/-- What `verifyMessage` appends for a message value. -/
def messageViolations (m : Message) : List Violation :=
  if m.IsValid = true then GetViolations m else [mandatoryViolation m.FullName]

/-- The string rule of the specification, with its allow-list test replaced
by the one of the code: an empty value violates when the field is required; a
non-empty value violates when an allow-list is set (also to the empty list)
and the value is not a member, or when no allow-list is set and the length is
below a set `minLength` or above a set `maxLength`. -/
def stringFieldViolates (desc : FieldDescriptor) (v : String) : Bool :=
  if v = "" then desc.Required
  else
    match desc.Allowed with
    | some allowed => decide (v ∉ allowed)
    | none =>
      decide ((desc.Lmin ≠ 0 ∧ (len v : Int) < desc.Lmin) ∨
        (desc.Lmax ≠ 0 ∧ (len v : Int) > desc.Lmax))

/-- The 64-bit integer rule in the words of the specification: the value 0
violates when the field is required; a non-zero value violates when it is
below a set `min` or above a set `max`. -/
def int64FieldViolates (desc : FieldDescriptor) (v : Int) : Bool :=
  if v = 0 then desc.Required
  else decide ((desc.Min ≠ 0 ∧ v < desc.Min) ∨ (desc.Max ≠ 0 ∧ v > desc.Max))

mutual
/-- The violation-free messages, with an allow-list counted as configured
whenever it is set: no string field and no 64-bit integer field that violates
its rule, no absent required message, and nothing of this inside a present
required message or an element of a required list of messages. An element of
a required list counts as a required message, so an absent element is a
violation too (the specification takes elements to be always present). -/
def violationFree : Message → Bool
  | .mk _ _ fields => fieldsViolationFree fields
/-- No field of the list produces a violation. -/
def fieldsViolationFree : List Field → Bool
  | [] => true
  | .message desc value :: rest =>
    (!desc.Required || (value.IsValid && violationFree value)) && fieldsViolationFree rest
  | .messageList desc values :: rest =>
    (!desc.Required || elementsViolationFree values) && fieldsViolationFree rest
  | .string desc value :: rest =>
    (!stringFieldViolates desc value) && fieldsViolationFree rest
  | .int32 _ _ :: rest => fieldsViolationFree rest
  | .int64 desc value :: rest =>
    (!int64FieldViolates desc value) && fieldsViolationFree rest
  | .other _ _ :: rest => fieldsViolationFree rest
/-- Every element of a required list is present and violation-free. -/
def elementsViolationFree : List Message → Bool
  | [] => true
  | e :: es => (e.IsValid && violationFree e) && elementsViolationFree es
end

/-- The string rule in the words of the specification: an empty value
violates when the field is required; a non-empty value violates when
`allowedValues` is configured, that is a non-empty set, and the value is not a
member, or when `allowedValues` is not configured (the empty set is the unset
value) and the length is below a set `minLength` or above a set `maxLength`. -/
def specStringFieldViolates (desc : FieldDescriptor) (v : String) : Bool :=
  let allowedValues : List String := desc.Allowed.getD []
  if v = "" then desc.Required
  else if allowedValues ≠ [] then decide (v ∉ allowedValues)
  else
    decide ((desc.Lmin ≠ 0 ∧ (len v : Int) < desc.Lmin) ∨
      (desc.Lmax ≠ 0 ∧ (len v : Int) > desc.Lmax))

mutual
/-- The violation-free messages in the words of the specification: no string
field and no 64-bit integer field that violates its rule as the
specification words it, no absent required message, and nothing of this
inside a present required message or an element of a required list of
messages. -/
def specViolationFree : Message → Bool
  | .mk _ _ fields => specFieldsViolationFree fields
/-- No field of the list violates its rule as the specification words it. -/
def specFieldsViolationFree : List Field → Bool
  | [] => true
  | .message desc value :: rest =>
    (!desc.Required || (value.IsValid && specViolationFree value)) &&
      specFieldsViolationFree rest
  | .messageList desc values :: rest =>
    (!desc.Required || specElementsViolationFree values) && specFieldsViolationFree rest
  | .string desc value :: rest =>
    (!specStringFieldViolates desc value) && specFieldsViolationFree rest
  | .int32 _ _ :: rest => specFieldsViolationFree rest
  | .int64 desc value :: rest =>
    (!int64FieldViolates desc value) && specFieldsViolationFree rest
  | .other _ _ :: rest => specFieldsViolationFree rest
/-- Every element of a required list is present and violation-free in the
words of the specification. -/
def specElementsViolationFree : List Message → Bool
  | [] => true
  | e :: es => (e.IsValid && specViolationFree e) && specElementsViolationFree es
end

mutual
/-- The depth of the chain of present required message fields of a message,
elements of required lists of messages included: 0 when the message has no
present required nested message. -/
def requiredDepth : Message → Nat
  | .mk _ _ fields => fieldsDepth fields
/-- The depth of the chain of present required messages below a list of
fields. -/
def fieldsDepth : List Field → Nat
  | [] => 0
  | .message desc value :: rest =>
    max (if desc.Required = true ∧ value.IsValid = true then requiredDepth value + 1 else 0)
      (fieldsDepth rest)
  | .messageList desc values :: rest =>
    max (if desc.Required = true then elementsDepth values else 0) (fieldsDepth rest)
  | .string _ _ :: rest => fieldsDepth rest
  | .int32 _ _ :: rest => fieldsDepth rest
  | .int64 _ _ :: rest => fieldsDepth rest
  | .other _ _ :: rest => fieldsDepth rest
/-- The depth of the chain of present required messages below the elements
of a required list of messages. -/
def elementsDepth : List Message → Nat
  | [] => 0
  | e :: es => max (if e.IsValid = true then requiredDepth e + 1 else 0) (elementsDepth es)
end

/-! ## Examples -/

def descReqName : FieldDescriptor :=
  { Name := "name", FullName := "pkg.Req.name", Required := true, Allowed := none,
    Lmin := 0, Lmax := 0, Min := 0, Max := 0 }

def descColour : FieldDescriptor :=
  { Name := "colour", FullName := "pkg.Req.colour", Required := false,
    Allowed := some ["a", "b"], Lmin := 2, Lmax := 5, Min := 0, Max := 0 }

def descCode : FieldDescriptor :=
  { Name := "code", FullName := "pkg.Req.code", Required := false, Allowed := none,
    Lmin := 2, Lmax := 5, Min := 0, Max := 0 }

def descCount : FieldDescriptor :=
  { Name := "count", FullName := "pkg.Req.count", Required := false, Allowed := none,
    Lmin := 0, Lmax := 0, Min := 1, Max := 10 }

def descReqCount : FieldDescriptor :=
  { Name := "total", FullName := "pkg.Req.total", Required := true, Allowed := none,
    Lmin := 0, Lmax := 0, Min := 1, Max := 10 }

/-- Seven fields without a message among them; five of them violate their
rule. -/
def scalarMessage : Message :=
  .mk "pkg.Req" true
    [ .string descReqName "", .int32 descReqCount 0, .int64 descCount 20,
      .other descReqName .BoolKind, .string descColour "c", .string descCode "x",
      .int64 descReqCount 0 ]

def descReqAddress : FieldDescriptor :=
  { Name := "address", FullName := "pkg.Req.address", Required := true, Allowed := none,
    Lmin := 0, Lmax := 0, Min := 0, Max := 0 }

def descOptAddress : FieldDescriptor :=
  { Name := "billing", FullName := "pkg.Req.billing", Required := false, Allowed := none,
    Lmin := 0, Lmax := 0, Min := 0, Max := 0 }

def descStreet : FieldDescriptor :=
  { Name := "street", FullName := "pkg.Address.street", Required := true, Allowed := none,
    Lmin := 0, Lmax := 0, Min := 0, Max := 0 }

def descCity : FieldDescriptor :=
  { Name := "city", FullName := "pkg.Address.city", Required := true, Allowed := none,
    Lmin := 0, Lmax := 0, Min := 0, Max := 0 }

def descZip : FieldDescriptor :=
  { Name := "zip", FullName := "pkg.Address.zip", Required := true, Allowed := none,
    Lmin := 0, Lmax := 0, Min := 0, Max := 0 }

def descCountry : FieldDescriptor :=
  { Name := "country", FullName := "pkg.Address.country", Required := true,
    Allowed := none, Lmin := 0, Lmax := 0, Min := 0, Max := 0 }

/-- The placeholder of an unset field of type `pkg.Address`. -/
def absentAddress : Message :=
  .mk "pkg.Address" false
    [.string descStreet "", .string descCity "", .string descZip "", .int64 descCountry 0]

/-- A set `pkg.Address` with its four required fields left empty. -/
def emptyAddress : Message :=
  .mk "pkg.Address" true
    [.string descStreet "", .string descCity "", .string descZip "", .int64 descCountry 0]

/-- Three violating string fields, to stand before a nested message. -/
def threeViolating : List Field :=
  [.string descReqName "", .string descColour "c", .string descCode "x"]

/-- A string field whose allow-list extension is set to an empty list, with
length bounds 2 and 5. -/
def descEmptyAllowed : FieldDescriptor :=
  { Name := "code", FullName := "pkg.Req.code", Required := false, Allowed := some [],
    Lmin := 2, Lmax := 5, Min := 0, Max := 0 }

def descReqAddresses : FieldDescriptor :=
  { Name := "addresses", FullName := "pkg.Req.addresses", Required := true,
    Allowed := none, Lmin := 0, Lmax := 0, Min := 0, Max := 0 }

/-- A set `pkg.Address` whose street and city are missing. -/
def halfAddress : Message :=
  .mk "pkg.Address" true
    [.string descStreet "", .string descCity "", .string descZip "12345",
      .int64 descCountry 49]

/-- A set `pkg.Address` with every required field filled in. -/
def fullAddress : Message :=
  .mk "pkg.Address" true
    [.string descStreet "Main", .string descCity "Ulm", .string descZip "12345",
      .int64 descCountry 49]

/-- The fields that the switch of `GetViolations` has a case for. -/
def hasCase (f : Field) : Bool :=
  decide (f.Kind ∈ [Kind.MessageKind, Kind.StringKind, Kind.Int32Kind, Kind.Int64Kind])

/-- A message with fields of kinds without a case between checked fields. -/
def mixedMessage : Message :=
  .mk "pkg.Req" true
    [ .other descReqName .BoolKind, .string descReqName "", .other descReqCount .DoubleKind,
      .int64 descCount 20, .other descReqName .BytesKind, .other descReqName .EnumKind ]

/-- Three violating string fields, a required present address with four
violations, and one more violating field. -/
def nestedMessage : Message :=
  .mk "pkg.Req" true
    (threeViolating ++ [.message descReqAddress emptyAddress, .int64 descReqCount 0])

theorem len_eq_zero_iff (s : String) : len s = 0 ↔ s = "" := by
  unfold len
  constructor
  · intro h
    rcases s with ⟨cs⟩
    cases cs with
    | nil => rfl
    | cons c cs =>
      exfalso
      have hc := Char.utf8Size_pos c
      simp [String.utf8ByteSize, String.utf8ByteSize.go] at h
      omega
  · rintro rfl
    rfl

theorem searchSlice_eq_true_iff (slice : List String) (s : String) :
    searchSlice slice s = true ↔ s ∈ slice := by
  induction slice with
  | nil => simp [searchSlice]
  | cons v slice ih =>
    by_cases h : s = v
    · simp [searchSlice, h]
    · simp [searchSlice, h, ih]

theorem appendViolationsLoop_fst (v : List (Option Violation)) :
    ∀ (vl : List Violation) (err : Option String),
      (appendViolationsLoop vl err v).1 = vl ++ v.reduceOption := by
  induction v with
  | nil => intro vl err; simp [appendViolationsLoop]
  | cons o v ih =>
    intro vl err
    cases o with
    | none => simp [appendViolationsLoop, ih, List.reduceOption_cons_of_none]
    | some val => simp [appendViolationsLoop, ih, List.reduceOption_cons_of_some]

theorem appendViolationsLoop_snd (v : List (Option Violation)) :
    ∀ (vl : List Violation) (err : Option String),
      (appendViolationsLoop vl err v).2 =
        if v.reduceOption ≠ [] ∧ (vl ++ v.reduceOption).length > 3 then
          some maxViolationsReached
        else err := by
  induction v with
  | nil => intro vl err; simp [appendViolationsLoop]
  | cons o v ih =>
    intro vl err
    cases o with
    | none => simp [appendViolationsLoop, ih, List.reduceOption_cons_of_none]
    | some val =>
      simp only [appendViolationsLoop, ih, List.reduceOption_cons_of_some]
      by_cases h1 : v.reduceOption = []
      · simp [h1]
      · simp only [h1, ne_eq, not_false_eq_true, true_and, reduceCtorEq, List.length_append,
          List.length_cons, List.length_nil]
        split_ifs <;> first | rfl | (exfalso; omega)

theorem appendViolations_eq (vl : List Violation) (v : List (Option Violation)) :
    appendViolations vl v =
      (vl ++ v.reduceOption,
        if v.reduceOption ≠ [] ∧ (vl ++ v.reduceOption).length > 3 then
          some maxViolationsReached
        else none) := by
  unfold appendViolations
  rw [Prod.ext_iff]
  exact ⟨appendViolationsLoop_fst v vl none, appendViolationsLoop_snd v vl none⟩

theorem appendViolations_none (vl : List Violation) :
    appendViolations vl [none] = (vl, none) := rfl

theorem appendViolations_some (vl : List Violation) (val : Violation) :
    appendViolations vl [some val] =
      (vl ++ [val], if vl.length + 1 > 3 then some maxViolationsReached else none) := by
  simp [appendViolations, appendViolationsLoop]

theorem verifyMessage_eq (vl : List Violation) (m : Message) :
    verifyMessage vl m =
      if m.IsValid = true then appendViolations vl ((GetViolations m).map some)
      else appendViolations vl [some (mandatoryViolation m.FullName)] := by
  cases m with
  | mk fullName isValid fields =>
    simp only [verifyMessage, GetViolations, Message.IsValid, Message.FullName]
    split_ifs <;> split <;> simp_all

/-- The fields loop on a list of fields none of which is of the message kind,
started from at most three violations. -/
theorem fieldsLoop_scalar (fields : List Field) :
    (∀ f ∈ fields, f.Kind ≠ Kind.MessageKind) →
      ∀ vl : List Violation, vl.length ≤ 3 →
        fieldsLoop vl fields = (vl ++ fields.filterMap scalarRule).take 4 := by
  induction fields with
  | nil =>
    intro _ vl hvl
    simp [fieldsLoop, List.take_of_length_le (Nat.le_succ_of_le hvl)]
  | cons f rest ih =>
    intro h vl hvl
    have hrest : ∀ g ∈ rest, g.Kind ≠ Kind.MessageKind :=
      fun g hg => h g (List.mem_cons_of_mem f hg)
    have hf := h f (List.mem_cons_self f rest)
    have step : ∀ o : Option Violation,
        (match appendViolations vl [o] with
          | (vl1, some _) => vl1
          | (vl1, none) => fieldsLoop vl1 rest) =
        (vl ++ (o.toList ++ rest.filterMap scalarRule)).take 4 := by
      intro o
      cases o with
      | none => simpa [appendViolations_none] using ih hrest vl hvl
      | some val =>
        rw [appendViolations_some]
        by_cases h3 : vl.length + 1 > 3
        · have : vl.length = 3 := by omega
          simp [h3, List.take_append_eq_append_take, this]
        · have h4 : (vl ++ [val]).length ≤ 3 := by simp; omega
          simpa [h3] using ih hrest (vl ++ [val]) h4
    cases f with
    | message d m => exact absurd rfl hf
    | messageList d ms => exact absurd rfl hf
    | string d s =>
      simp only [fieldsLoop, List.filterMap_cons, scalarRule]
      rw [step]
      cases stringViolation d s <;> rfl
    | int32 d i => simpa [fieldsLoop, scalarRule] using ih hrest vl hvl
    | int64 d i =>
      simp only [fieldsLoop, List.filterMap_cons, scalarRule]
      rw [step]
      cases int64Violation d i <;> rfl
    | other d k => simpa [fieldsLoop, scalarRule] using ih hrest vl hvl

theorem fieldsLoop_nil (vl : List Violation) : fieldsLoop vl [] = vl := by
  simp [fieldsLoop]

theorem reduceOption_map_some (l : List Violation) :
    (l.map some).reduceOption = l := by
  induction l with
  | nil => rfl
  | cons a l ih => simp [List.reduceOption_cons_of_some, ih]

theorem fieldsLoop_cons (vl : List Violation) (f : Field) (rest : List Field) :
    fieldsLoop vl (f :: rest) =
      match fieldStep vl f with
      | (vl1, some _) => vl1
      | (vl1, none) => fieldsLoop vl1 rest := by
  cases f with
  | message d m => cases h : d.Required <;> simp [fieldsLoop, fieldStep, h]
  | messageList d ms => cases h : d.Required <;> simp [fieldsLoop, fieldStep, h]
  | string d s => simp only [fieldsLoop, fieldStep]
  | int32 d i => simp only [fieldsLoop, fieldStep]
  | int64 d i => simp only [fieldsLoop, fieldStep]
  | other d k => simp only [fieldsLoop, fieldStep]

theorem verifyMessage_eq_append (vl : List Violation) (m : Message) :
    verifyMessage vl m =
      (vl ++ messageViolations m,
        if messageViolations m ≠ [] ∧ (vl ++ messageViolations m).length > 3 then
          some maxViolationsReached
        else none) := by
  rw [verifyMessage_eq, messageViolations]
  cases h : m.IsValid <;>
    simp [appendViolations_eq, reduceOption_map_some, List.reduceOption_cons_of_some]

theorem listLoop_cons (vl : List Violation) (va : Message) (iv : List Message) :
    listLoop vl (va :: iv) =
      if messageViolations va ≠ [] ∧ (vl ++ messageViolations va).length > 3 then
        (vl ++ messageViolations va, some maxViolationsReached)
      else listLoop (vl ++ messageViolations va) iv := by
  simp only [listLoop, verifyMessage_eq_append]
  split_ifs <;> rfl

/-- The loop over the elements of a repeated message field only appends, and
it ends with an error only when more than three violations are held. -/
theorem listLoop_spec (ms : List Message) :
    ∀ vl : List Violation,
      (∃ t, (listLoop vl ms).1 = vl ++ t) ∧
        ((listLoop vl ms).2 ≠ none → (listLoop vl ms).1.length > 3) := by
  induction ms with
  | nil => intro vl; simp [listLoop]
  | cons va iv ih =>
    intro vl
    rw [listLoop_cons]
    split_ifs with h
    · exact ⟨⟨_, rfl⟩, fun _ => h.2⟩
    · obtain ⟨⟨t, ht⟩, h2⟩ := ih (vl ++ messageViolations va)
      exact ⟨⟨messageViolations va ++ t, by rw [ht, List.append_assoc]⟩, h2⟩

/-- An iteration of the fields loop only appends, and it reports an error
only when more than three violations are held. -/
theorem fieldStep_spec (vl : List Violation) (f : Field) :
    (∃ t, (fieldStep vl f).1 = vl ++ t) ∧
      ((fieldStep vl f).2 ≠ none → (fieldStep vl f).1.length > 3) := by
  have happ : ∀ v : List (Option Violation),
      (∃ t, (appendViolations vl v).1 = vl ++ t) ∧
        ((appendViolations vl v).2 ≠ none → (appendViolations vl v).1.length > 3) := by
    intro v
    rw [appendViolations_eq]
    refine ⟨⟨_, rfl⟩, ?_⟩
    dsimp only
    split_ifs with h
    · exact fun _ => h.2
    · exact fun h0 => absurd rfl h0
  have hskip : (∃ t, ((vl, none) : List Violation × Option String).1 = vl ++ t) ∧
      (((vl, none) : List Violation × Option String).2 ≠ none →
        ((vl, none) : List Violation × Option String).1.length > 3) :=
    ⟨⟨[], by simp⟩, fun h0 => absurd rfl h0⟩
  cases f with
  | message d m =>
    cases h : d.Required
    · simp [fieldStep, h]
    · simp only [fieldStep, h, if_true, verifyMessage_eq_append]
      refine ⟨⟨_, rfl⟩, ?_⟩
      split_ifs with h1
      · exact fun _ => h1.2
      · exact fun h0 => absurd rfl h0
  | messageList d ms =>
    cases h : d.Required
    · simp [fieldStep, h]
    · simpa [fieldStep, h] using listLoop_spec ms vl
  | string d s => exact happ _
  | int32 d i => exact hskip
  | int64 d i => exact happ _
  | other d k => exact hskip

/-- The fields loop only appends to the list it starts from. -/
theorem fieldsLoop_extends (fields : List Field) :
    ∀ vl : List Violation, ∃ t, fieldsLoop vl fields = vl ++ t := by
  induction fields with
  | nil => intro vl; exact ⟨[], by simp [fieldsLoop_nil]⟩
  | cons f rest ih =>
    intro vl
    rw [fieldsLoop_cons]
    obtain ⟨⟨t, ht⟩, -⟩ := fieldStep_spec vl f
    rcases hs : fieldStep vl f with ⟨vl1, e⟩
    rw [hs] at ht
    simp only at ht
    cases e with
    | some err => exact ⟨t, ht⟩
    | none =>
      obtain ⟨u, hu⟩ := ih vl1
      exact ⟨t ++ u, by show fieldsLoop vl1 rest = _; rw [hu, ht, List.append_assoc]⟩

/-- While the fields loop holds at most three violations at the end of a list
of fields, it has not returned early, and goes on with the fields after. -/
theorem fieldsLoop_append_of_le (pre post : List Field) :
    ∀ vl : List Violation, (fieldsLoop vl pre).length ≤ 3 →
      fieldsLoop vl (pre ++ post) = fieldsLoop (fieldsLoop vl pre) post := by
  induction pre with
  | nil => intro vl _; simp [fieldsLoop_nil]
  | cons f rest ih =>
    intro vl
    rw [List.cons_append, fieldsLoop_cons, fieldsLoop_cons]
    obtain ⟨-, h2⟩ := fieldStep_spec vl f
    rcases hs : fieldStep vl f with ⟨vl1, e⟩
    rw [hs] at h2
    cases e with
    | some err =>
      intro hle
      have := h2 (by simp)
      simp only at hle this
      omega
    | none => exact ih vl1

/-- A field whose iteration leaves `vlist` as it is and raises no error can be
removed from the message. -/
theorem fieldsLoop_remove (f : Field) (hf : ∀ vl, fieldStep vl f = (vl, none))
    (pre post : List Field) :
    ∀ vl : List Violation,
      fieldsLoop vl (pre ++ f :: post) = fieldsLoop vl (pre ++ post) := by
  induction pre with
  | nil => intro vl; simp [fieldsLoop_cons, hf]
  | cons g rest ih =>
    intro vl
    rw [List.cons_append, List.cons_append, fieldsLoop_cons, fieldsLoop_cons]
    rcases fieldStep vl g with ⟨vl1, e⟩
    cases e with
    | some err => rfl
    | none => exact ih vl1

theorem GetViolations_mk (fullName : String) (isValid : Bool) (fields : List Field) :
    GetViolations (.mk fullName isValid fields) = fieldsLoop [] fields := by
  simp only [GetViolations]

theorem GetViolations_string_only (fullName : String) (isValid : Bool)
    (desc : FieldDescriptor) (value : String) :
    GetViolations (.mk fullName isValid [.string desc value]) =
      (stringViolation desc value).toList := by
  cases h : stringViolation desc value <;>
    simp [GetViolations, fieldsLoop, h, appendViolations_none, appendViolations_some]

theorem GetViolations_int64_only (fullName : String) (isValid : Bool)
    (desc : FieldDescriptor) (value : Int) :
    GetViolations (.mk fullName isValid [.int64 desc value]) =
      (int64Violation desc value).toList := by
  cases h : int64Violation desc value <;>
    simp [GetViolations, fieldsLoop, h, appendViolations_none, appendViolations_some]

/-! ## The claims -/

/-- C1: for a message without fields of the message kind, `GetViolations`
returns the first four (all, when fewer) of the violations that the rules of
its fields produce, in the order of the fields. -/
theorem GetViolations_scalar_take_four (m : Message)
    (h : ∀ f ∈ m.Fields, f.Kind ≠ Kind.MessageKind) :
    GetViolations m = (m.Fields.filterMap scalarRule).take 4 := by
  cases m with
  | mk fullName isValid fields =>
    have := fieldsLoop_scalar fields h [] (by simp)
    simpa [GetViolations, Message.Fields] using this

theorem GetViolations_scalar_take_four_witness :
    (∀ f ∈ scalarMessage.Fields, f.Kind ≠ Kind.MessageKind) ∧
      GetViolations scalarMessage =
        (scalarMessage.Fields.filterMap scalarRule).take 4 ∧
      (scalarMessage.Fields.filterMap scalarRule).length = 5 ∧
      GetViolations scalarMessage =
        [ ⟨"pkg.Req.name", "mandatory field not provided"⟩,
          ⟨"count", "Invalid Value, have (20), want min(1), max (10)"⟩,
          ⟨"colour", "Value (c) not allowed"⟩,
          ⟨"code", "Invalid Length, have (1), want min(2), max (5)"⟩ ] :=
  ⟨by decide, GetViolations_scalar_take_four scalarMessage (by decide), by decide, by decide⟩

theorem stringViolation_empty (desc : FieldDescriptor) :
    stringViolation desc "" =
      if desc.Required = true then some (mandatoryViolation desc.FullName) else none := by
  have h0 : len "" = 0 := rfl
  unfold stringViolation
  cases desc.Allowed <;> simp [h0]

/-- C2: a required string field left empty yields exactly one violation,
carrying the fully-qualified name of the field and the description
"mandatory field not provided", whatever allow-list and length bounds the
field has; a message with only this field gets exactly this one-element list. -/
theorem required_empty_string_mandatory (fullName : String) (isValid : Bool)
    (desc : FieldDescriptor) (hreq : desc.Required = true) :
    stringViolation desc "" =
        some { Field := desc.FullName, Description := "mandatory field not provided" } ∧
      GetViolations (.mk fullName isValid [.string desc ""]) =
        [{ Field := desc.FullName, Description := "mandatory field not provided" }] := by
  have h : stringViolation desc "" =
      some { Field := desc.FullName, Description := "mandatory field not provided" } := by
    rw [stringViolation_empty, if_pos hreq]; rfl
  exact ⟨h, by rw [GetViolations_string_only, h]; rfl⟩

theorem required_empty_string_mandatory_witness :
    ({ descColour with Required := true } : FieldDescriptor).Required = true ∧
      GetViolations (.mk "pkg.Req" true [.string { descColour with Required := true } ""]) =
        [{ Field := "pkg.Req.colour", Description := "mandatory field not provided" }] :=
  ⟨rfl, (required_empty_string_mandatory "pkg.Req" true
    { descColour with Required := true } rfl).2⟩

/-- C3: with an allow-list configured and a non-empty value `v`, a string
field yields a violation exactly when `v` is not in the allow-list, whatever
`minLength` and `maxLength` are; the violation carries the short name of the
field and the description "Value (v) not allowed". -/
theorem allowed_list_decides_alone (fullName : String) (isValid : Bool)
    (desc : FieldDescriptor) (allowedList : List String) (v : String)
    (hallowed : desc.Allowed = some allowedList) (hv : v ≠ "") :
    stringViolation desc v =
        (if v ∈ allowedList then none
         else some { Field := desc.Name,
                     Description := "Value (" ++ v ++ ") not allowed" }) ∧
      GetViolations (.mk fullName isValid [.string desc v]) =
        (if v ∈ allowedList then []
         else [{ Field := desc.Name,
                 Description := "Value (" ++ v ++ ") not allowed" }]) := by
  have hlen : len v ≠ 0 := fun h => hv ((len_eq_zero_iff v).1 h)
  have h : stringViolation desc v =
      (if v ∈ allowedList then none
       else some { Field := desc.Name,
                   Description := "Value (" ++ v ++ ") not allowed" }) := by
    unfold stringViolation
    rw [hallowed]
    by_cases hm : v ∈ allowedList
    · have hs : searchSlice allowedList v = true := (searchSlice_eq_true_iff _ _).2 hm
      simp [hlen, hm, hs]
    · have hs : searchSlice allowedList v = false := by
        cases hb : searchSlice allowedList v
        · rfl
        · exact absurd ((searchSlice_eq_true_iff _ _).1 hb) hm
      simp [hlen, hm, hs, notAllowedViolation]
  refine ⟨h, ?_⟩
  rw [GetViolations_string_only, h]
  split_ifs <;> rfl

theorem allowed_list_decides_alone_witness :
    (descColour.Allowed = some ["a", "b"] ∧ "c" ≠ "" ∧ "a" ≠ "") ∧
      GetViolations (.mk "pkg.Req" true [.string descColour "c"]) =
        [{ Field := "colour", Description := "Value (c) not allowed" }] ∧
      stringViolation descColour "a" = none :=
  ⟨by decide,
   (allowed_list_decides_alone "pkg.Req" true descColour ["a", "b"] "c" rfl (by decide)).2,
   (allowed_list_decides_alone "pkg.Req" true descColour ["a", "b"] "a" rfl (by decide)).1⟩

/-- C5: for a non-zero value `v`, a 64-bit integer field yields a violation
exactly when `min` is set and `v` is below it, or `max` is set and `v` is
above it; the violation carries the short name of the field and the
description "Invalid Value, have (v), want min(min), max (max)". -/
theorem int64_range_rule (fullName : String) (isValid : Bool)
    (desc : FieldDescriptor) (v : Int) (hv : v ≠ 0) :
    int64Violation desc v =
        (if (desc.Min ≠ 0 ∧ v < desc.Min) ∨ (desc.Max ≠ 0 ∧ v > desc.Max) then
           some { Field := desc.Name,
                  Description := "Invalid Value, have (" ++ toString v ++
                    "), want min(" ++ toString desc.Min ++ "), max (" ++
                    toString desc.Max ++ ")" }
         else none) ∧
      GetViolations (.mk fullName isValid [.int64 desc v]) =
        (if (desc.Min ≠ 0 ∧ v < desc.Min) ∨ (desc.Max ≠ 0 ∧ v > desc.Max) then
           [{ Field := desc.Name,
              Description := "Invalid Value, have (" ++ toString v ++
                "), want min(" ++ toString desc.Min ++ "), max (" ++
                toString desc.Max ++ ")" }]
         else []) := by
  have h : int64Violation desc v =
      (if (desc.Min ≠ 0 ∧ v < desc.Min) ∨ (desc.Max ≠ 0 ∧ v > desc.Max) then
         some { Field := desc.Name,
                Description := "Invalid Value, have (" ++ toString v ++
                  "), want min(" ++ toString desc.Min ++ "), max (" ++
                  toString desc.Max ++ ")" }
       else none) := by
    unfold int64Violation
    simp only [hv, and_false, if_false, ne_eq, not_false_eq_true, if_true]
  refine ⟨h, ?_⟩
  rw [GetViolations_int64_only, h]
  split_ifs <;> rfl

theorem int64_range_rule_witness :
    (20 : Int) ≠ 0 ∧
      GetViolations (.mk "pkg.Req" true [.int64 descCount 20]) =
        [{ Field := "count",
           Description := "Invalid Value, have (20), want min(1), max (10)" }] :=
  ⟨by decide, (int64_range_rule "pkg.Req" true descCount 20 (by decide)).2⟩

/-- C6: a 64-bit integer field whose value is 0 yields, when it is required,
exactly one violation with the fully-qualified name of the field and the
description "mandatory field not provided", and no violation when it is not
required, whatever `min` and `max` are. -/
theorem int64_zero_rule (fullName : String) (isValid : Bool) (desc : FieldDescriptor) :
    (desc.Required = true →
        int64Violation desc 0 =
          some { Field := desc.FullName, Description := "mandatory field not provided" } ∧
        GetViolations (.mk fullName isValid [.int64 desc 0]) =
          [{ Field := desc.FullName, Description := "mandatory field not provided" }]) ∧
      (desc.Required = false →
        int64Violation desc 0 = none ∧
        GetViolations (.mk fullName isValid [.int64 desc 0]) = []) := by
  constructor
  · intro hreq
    have h : int64Violation desc 0 =
        some { Field := desc.FullName, Description := "mandatory field not provided" } := by
      simp [int64Violation, hreq, mandatoryViolation]
    exact ⟨h, by rw [GetViolations_int64_only, h]; rfl⟩
  · intro hreq
    have h : int64Violation desc 0 = none := by
      simp [int64Violation, hreq]
    exact ⟨h, by rw [GetViolations_int64_only, h]; rfl⟩

theorem int64_zero_rule_witness :
    (descReqCount.Required = true ∧ descCount.Required = false) ∧
      GetViolations (.mk "pkg.Req" true [.int64 descReqCount 0]) =
        [{ Field := "pkg.Req.total", Description := "mandatory field not provided" }] ∧
      GetViolations (.mk "pkg.Req" true [.int64 descCount 0]) = [] :=
  ⟨by decide,
   ((int64_zero_rule "pkg.Req" true descReqCount).1 rfl).2,
   ((int64_zero_rule "pkg.Req" true descCount).2 rfl).2⟩

/-- C7: a field of the 32-bit integer kind never yields a violation, whatever
its value, its required flag and its `min` and `max`: a message with only such
a field has no violation, and the result for any message is the result for the
message without that field. -/
theorem int32_never_checked (fullName : String) (isValid : Bool)
    (pre post : List Field) (desc : FieldDescriptor) (value : Int) :
    GetViolations (.mk fullName isValid [.int32 desc value]) = [] ∧
      GetViolations (.mk fullName isValid (pre ++ .int32 desc value :: post)) =
        GetViolations (.mk fullName isValid (pre ++ post)) := by
  constructor
  · simp [GetViolations, fieldsLoop]
  · simp only [GetViolations]
    exact fieldsLoop_remove (.int32 desc value) (fun _ => rfl) pre post []

/-- C8: a required, non-list message field whose nested value is absent
yields exactly one violation, carrying the fully-qualified name of the nested
message type and the description "mandatory field not provided". -/
theorem absent_required_message (fullName : String) (isValid : Bool)
    (desc : FieldDescriptor) (nested : Message) (vl : List Violation)
    (hreq : desc.Required = true) (habsent : nested.IsValid = false) :
    (verifyMessage vl nested).1 =
        vl ++ [{ Field := nested.FullName, Description := "mandatory field not provided" }] ∧
      GetViolations (.mk fullName isValid [.message desc nested]) =
        [{ Field := nested.FullName, Description := "mandatory field not provided" }] := by
  have hm : messageViolations nested =
      [{ Field := nested.FullName, Description := "mandatory field not provided" }] := by
    simp [messageViolations, habsent, mandatoryViolation]
  constructor
  · rw [verifyMessage_eq_append, hm]
  · simp [GetViolations, fieldsLoop_cons, fieldStep, hreq, verifyMessage_eq_append, hm,
      fieldsLoop_nil]

theorem absent_required_message_witness :
    (descReqAddress.Required = true ∧ absentAddress.IsValid = false) ∧
      GetViolations (.mk "pkg.Req" true [.message descReqAddress absentAddress]) =
        [{ Field := "pkg.Address", Description := "mandatory field not provided" }] :=
  ⟨by decide,
   (absent_required_message "pkg.Req" true descReqAddress absentAddress [] rfl rfl).2⟩

/-- C9: a message field that is not required, list or not, contributes no
violation whatever its value is: the result for a message is the result for
the message without that field. -/
theorem optional_message_never_inspected (fullName : String) (isValid : Bool)
    (pre post : List Field) (f : Field)
    (hkind : f.Kind = Kind.MessageKind) (hreq : f.desc.Required = false) :
    GetViolations (.mk fullName isValid (pre ++ f :: post)) =
      GetViolations (.mk fullName isValid (pre ++ post)) := by
  have hstep : ∀ vl, fieldStep vl f = (vl, none) := by
    intro vl
    cases f with
    | message d m =>
      have hd : d.Required = false := hreq
      simp [fieldStep, hd]
    | messageList d ms =>
      have hd : d.Required = false := hreq
      simp [fieldStep, hd]
    | string d s => simp [Field.Kind] at hkind
    | int32 d i => simp [Field.Kind] at hkind
    | int64 d i => simp [Field.Kind] at hkind
    | other d k => cases k <;> simp [Field.Kind, OtherKind.toKind] at hkind
  rw [GetViolations_mk, GetViolations_mk]
  exact fieldsLoop_remove f hstep pre post []

theorem optional_message_never_inspected_witness :
    ((Field.message descOptAddress emptyAddress).Kind = Kind.MessageKind ∧
      (Field.message descOptAddress emptyAddress).desc.Required = false) ∧
      GetViolations emptyAddress ≠ [] ∧
      GetViolations (.mk "pkg.Req" true
          ([.string descCode "x"] ++ .message descOptAddress emptyAddress ::
            [.int64 descCount 20])) =
        GetViolations (.mk "pkg.Req" true ([.string descCode "x"] ++ [.int64 descCount 20])) ∧
      GetViolations (.mk "pkg.Req" true
          ([] ++ .messageList descOptAddress [emptyAddress, absentAddress] :: [])) =
        GetViolations (.mk "pkg.Req" true ([] ++ [])) :=
  ⟨by decide, by decide,
   optional_message_never_inspected "pkg.Req" true [.string descCode "x"]
     [.int64 descCount 20] (.message descOptAddress emptyAddress) rfl rfl,
   optional_message_never_inspected "pkg.Req" true [] []
     (.messageList descOptAddress [emptyAddress, absentAddress]) rfl rfl⟩

/-- C10: when the fields before a required, present, non-list message field
produce a list `p` of at most three violations, the result of `GetViolations`
begins with `p` followed by the whole of `GetViolations` of the nested value,
in order. -/
theorem nested_violations_spliced_whole (fullName : String) (isValid : Bool)
    (pre post : List Field) (desc : FieldDescriptor) (nested : Message)
    (p : List Violation)
    (hreq : desc.Required = true) (hpresent : nested.IsValid = true)
    (hp : GetViolations (.mk fullName isValid pre) = p) (hlen : p.length ≤ 3) :
    ∃ t, GetViolations (.mk fullName isValid (pre ++ .message desc nested :: post)) =
      p ++ GetViolations nested ++ t := by
  rw [GetViolations_mk] at hp ⊢
  rw [fieldsLoop_append_of_le pre _ [] (by rw [hp]; exact hlen), hp, fieldsLoop_cons]
  have hm : messageViolations nested = GetViolations nested := by
    simp [messageViolations, hpresent]
  simp only [fieldStep, hreq, if_true, verifyMessage_eq_append, hm]
  split_ifs
  · exact ⟨[], by simp⟩
  · exact fieldsLoop_extends post _

theorem nested_violations_spliced_whole_witness :
    (descReqAddress.Required = true ∧ emptyAddress.IsValid = true ∧
      GetViolations (.mk "pkg.Req" true threeViolating) =
        [ ⟨"pkg.Req.name", "mandatory field not provided"⟩,
          ⟨"colour", "Value (c) not allowed"⟩,
          ⟨"code", "Invalid Length, have (1), want min(2), max (5)"⟩ ] ∧
      (GetViolations emptyAddress).length = 4) ∧
      (∃ t, GetViolations (.mk "pkg.Req" true
          (threeViolating ++ .message descReqAddress emptyAddress ::
            [.int64 descReqCount 0])) =
        [ ⟨"pkg.Req.name", "mandatory field not provided"⟩,
          ⟨"colour", "Value (c) not allowed"⟩,
          ⟨"code", "Invalid Length, have (1), want min(2), max (5)"⟩ ] ++
          GetViolations emptyAddress ++ t) ∧
      GetViolations (.mk "pkg.Req" true
          (threeViolating ++ .message descReqAddress emptyAddress ::
            [.int64 descReqCount 0])) =
        [ ⟨"pkg.Req.name", "mandatory field not provided"⟩,
          ⟨"colour", "Value (c) not allowed"⟩,
          ⟨"code", "Invalid Length, have (1), want min(2), max (5)"⟩,
          ⟨"pkg.Address.street", "mandatory field not provided"⟩,
          ⟨"pkg.Address.city", "mandatory field not provided"⟩,
          ⟨"pkg.Address.zip", "mandatory field not provided"⟩,
          ⟨"pkg.Address.country", "mandatory field not provided"⟩ ] :=
  ⟨by decide,
   nested_violations_spliced_whole "pkg.Req" true threeViolating [.int64 descReqCount 0]
     descReqAddress emptyAddress _ rfl rfl (by decide) (by decide),
   by decide⟩

/-! ## Further lemmas on the traversal -/

theorem soft_cap_length (vl c : List Violation) (hvl : vl.length ≤ 3)
    (h : ¬ (c ≠ [] ∧ (vl ++ c).length > 3)) : (vl ++ c).length ≤ 3 := by
  by_cases hc : c = []
  · simpa [hc] using hvl
  · have : ¬ (vl ++ c).length > 3 := fun h3 => h ⟨hc, h3⟩
    omega

/-- The loop over the elements of a repeated message field, started from at
most three violations, ends without error only with at most three. -/
theorem listLoop_le (ms : List Message) :
    ∀ vl : List Violation, vl.length ≤ 3 → (listLoop vl ms).2 = none →
      (listLoop vl ms).1.length ≤ 3 := by
  induction ms with
  | nil => intro vl hvl _; simpa [listLoop] using hvl
  | cons va iv ih =>
    intro vl hvl
    rw [listLoop_cons]
    split_ifs with h
    · intro h0; exact absurd h0 (by simp)
    · exact ih _ (soft_cap_length vl _ hvl h)

/-- An iteration of the fields loop started from at most three violations
ends without error only with at most three. -/
theorem fieldStep_le (vl : List Violation) (f : Field) (hvl : vl.length ≤ 3)
    (h : (fieldStep vl f).2 = none) : (fieldStep vl f).1.length ≤ 3 := by
  have happ : ∀ v : List (Option Violation), (appendViolations vl v).2 = none →
      (appendViolations vl v).1.length ≤ 3 := by
    intro v
    rw [appendViolations_eq]
    dsimp only
    split_ifs with hc
    · intro h0; exact absurd h0 (by simp)
    · intro _; exact soft_cap_length vl _ hvl hc
  cases f with
  | message d m =>
    cases hd : d.Required
    · simpa [fieldStep, hd] using hvl
    · simp only [fieldStep, hd, if_true, verifyMessage_eq_append] at h ⊢
      split_ifs at h with hc
      exact soft_cap_length vl _ hvl hc
  | messageList d ms =>
    cases hd : d.Required
    · simpa [fieldStep, hd] using hvl
    · simp only [fieldStep, hd, if_true] at h ⊢
      exact listLoop_le ms vl hvl h
  | string d s => exact happ _ h
  | int32 d i => exact hvl
  | int64 d i => exact happ _ h
  | other d k => exact hvl

/-- Once the fields loop, started from at most three violations, holds more
than three at the end of a list of fields, it has returned, and the fields
after are not looked at. -/
theorem fieldsLoop_append_of_gt (pre post : List Field) :
    ∀ vl : List Violation, vl.length ≤ 3 → (fieldsLoop vl pre).length > 3 →
      fieldsLoop vl (pre ++ post) = fieldsLoop vl pre := by
  induction pre with
  | nil => intro vl hvl h; rw [fieldsLoop_nil] at h; omega
  | cons f rest ih =>
    intro vl hvl
    rw [List.cons_append, fieldsLoop_cons, fieldsLoop_cons]
    have hle := fieldStep_le vl f hvl
    rcases hs : fieldStep vl f with ⟨vl1, e⟩
    rw [hs] at hle
    cases e with
    | some err => intro _; rfl
    | none => exact ih vl1 (hle rfl)

/-- The loop over the elements of a repeated message field, started from at
most three violations, appends what `verifyMessage` appends for the first `k`
elements, where `k` is the first count of elements at which more than three
violations are held, or the number of elements when there is none. -/
theorem listLoop_take (es : List Message) :
    ∀ vl : List Violation, vl.length ≤ 3 →
      ∃ k, k ≤ es.length ∧
        (listLoop vl es).1 = vl ++ ((es.take k).map messageViolations).flatten ∧
        (k < es.length → (listLoop vl es).1.length > 3) ∧
        (∀ j, j < k → (vl ++ ((es.take j).map messageViolations).flatten).length ≤ 3) := by
  induction es with
  | nil =>
    intro vl _
    exact ⟨0, by simp, by simp [listLoop], by simp, by simp⟩
  | cons e es ih =>
    intro vl hvl
    rw [listLoop_cons]
    split_ifs with h
    · refine ⟨1, by simp, by simp, fun _ => h.2, ?_⟩
      intro j hj
      have : j = 0 := by omega
      subst this
      simpa using hvl
    · obtain ⟨k, hk, heq, hgt, hle⟩ := ih (vl ++ messageViolations e)
        (soft_cap_length vl _ hvl h)
      refine ⟨k + 1, by simpa using hk, ?_, ?_, ?_⟩
      · rw [heq]; simp
      · intro hlt
        exact hgt (by simpa using hlt)
      · intro j hj
        cases j with
        | zero => simpa using hvl
        | succ i =>
          have := hle i (by omega)
          simpa using this

theorem map_messageViolations_of_valid (es : List Message)
    (h : ∀ e ∈ es, e.IsValid = true) :
    es.map messageViolations = es.map GetViolations := by
  apply List.map_congr_left
  intro e he
  simp [messageViolations, h e he]

theorem GetViolations_list_only (fullName : String) (isValid : Bool)
    (desc : FieldDescriptor) (es : List Message) (hreq : desc.Required = true) :
    GetViolations (.mk fullName isValid [.messageList desc es]) = (listLoop [] es).1 := by
  rw [GetViolations_mk, fieldsLoop_cons]
  simp only [fieldStep, hreq, if_true]
  rcases listLoop [] es with ⟨vl, e⟩
  cases e <;> simp [fieldsLoop_nil]

/-- Removing fields whose iteration leaves `vlist` as it is does not change
the result of the fields loop. -/
theorem fieldsLoop_filter (keep : Field → Bool) (fields : List Field) :
    (∀ f ∈ fields, keep f = false → ∀ vl, fieldStep vl f = (vl, none)) →
      ∀ vl : List Violation,
        fieldsLoop vl (fields.filter keep) = fieldsLoop vl fields := by
  induction fields with
  | nil => intro _ vl; rfl
  | cons f rest ih =>
    intro h vl
    have hrest := ih (fun g hg => h g (List.mem_cons_of_mem f hg))
    cases hk : keep f
    · rw [List.filter_cons_of_neg (by simp [hk]), fieldsLoop_cons,
        h f (List.mem_cons_self f rest) hk vl]
      exact hrest vl
    · rw [List.filter_cons_of_pos hk, fieldsLoop_cons, fieldsLoop_cons]
      rcases fieldStep vl f with ⟨vl1, e⟩
      cases e with
      | some err => rfl
      | none => exact hrest vl1

/-- A field of a kind other than message, string and 64-bit integer leaves
`vlist` as it is. -/
theorem fieldStep_of_no_rule (f : Field)
    (h : f.Kind ≠ Kind.MessageKind ∧ f.Kind ≠ Kind.StringKind ∧ f.Kind ≠ Kind.Int64Kind) :
    ∀ vl, fieldStep vl f = (vl, none) := by
  intro vl
  cases f with
  | message d m => exact absurd rfl h.1
  | messageList d ms => exact absurd rfl h.1
  | string d s => exact absurd rfl h.2.1
  | int32 d i => rfl
  | int64 d i => exact absurd rfl h.2.2
  | other d k => rfl

/-- The string case of the code produces no violation exactly when the value
does not violate the string rule as the specification words it. -/
theorem stringViolation_eq_none_iff (desc : FieldDescriptor) (v : String) :
    stringViolation desc v = none ↔ stringFieldViolates desc v = false := by
  by_cases hv : v = ""
  · subst hv
    have h0 : len "" = 0 := rfl
    unfold stringViolation stringFieldViolates
    cases desc.Allowed <;> cases desc.Required <;> simp [h0]
  · have hlen : len v ≠ 0 := fun h => hv ((len_eq_zero_iff v).1 h)
    unfold stringViolation stringFieldViolates
    cases hA : desc.Allowed with
    | none =>
      simp only [hlen, hv, and_false, if_false, ne_eq, not_false_eq_true, if_true]
      split_ifs with hc <;> simp [hc]
    | some allowed =>
      by_cases hm : v ∈ allowed
      · have hs : searchSlice allowed v = true := (searchSlice_eq_true_iff _ _).2 hm
        simp [hlen, hv, hm, hs]
      · have hs : searchSlice allowed v = false := by
          cases hb : searchSlice allowed v
          · rfl
          · exact absurd ((searchSlice_eq_true_iff _ _).1 hb) hm
        simp [hlen, hv, hm, hs]

/-- The 64-bit integer case of the code produces no violation exactly when
the value does not violate the integer rule as the specification words it. -/
theorem int64Violation_eq_none_iff (desc : FieldDescriptor) (v : Int) :
    int64Violation desc v = none ↔ int64FieldViolates desc v = false := by
  unfold int64Violation int64FieldViolates
  by_cases hv : v = 0
  · cases desc.Required <;> simp [hv]
  · simp only [hv, and_false, if_false, ne_eq, not_false_eq_true, if_true]
    split_ifs with hc <;> simp [hc]

theorem messageViolations_eq_nil_iff (m : Message) :
    messageViolations m = [] ↔ m.IsValid = true ∧ GetViolations m = [] := by
  unfold messageViolations
  cases m.IsValid <;> simp

theorem listLoop_of_quiet (es : List Message) :
    (∀ e ∈ es, messageViolations e = []) → ∀ vl, listLoop vl es = (vl, none) := by
  induction es with
  | nil => intro _ vl; simp [listLoop]
  | cons e es ih =>
    intro h vl
    have he := h e (List.mem_cons_self e es)
    rw [listLoop_cons, he]
    simpa using ih (fun g hg => h g (List.mem_cons_of_mem e hg)) vl

/-- The loop over the elements of a repeated message field leaves the list as
it is exactly when `verifyMessage` appends nothing for every element. -/
theorem listLoop_fst_eq_self_iff (es : List Message) :
    ∀ vl, (listLoop vl es).1 = vl ↔ ∀ e ∈ es, messageViolations e = [] := by
  induction es with
  | nil => intro vl; simp [listLoop]
  | cons e es ih =>
    intro vl
    constructor
    · intro h
      rw [listLoop_cons] at h
      have he : messageViolations e = [] := by
        split_ifs at h with hc
        · simpa using h
        · obtain ⟨⟨t, ht⟩, -⟩ := listLoop_spec es (vl ++ messageViolations e)
          rw [ht, List.append_assoc] at h
          have := List.append_right_eq_self.1 h
          exact (List.append_eq_nil.1 this).1
      rw [he] at h
      simp only [List.append_nil, ne_eq, not_true_eq_false, false_and, if_false] at h
      intro g hg
      rcases List.mem_cons.1 hg with rfl | hg
      · exact he
      · exact (ih vl).1 h g hg
    · intro h
      rw [listLoop_of_quiet _ h vl]

/-- An iteration of the fields loop that appends nothing raises no error. -/
theorem fieldStep_snd_of_fst_eq (vl : List Violation) (f : Field)
    (h : (fieldStep vl f).1 = vl) : (fieldStep vl f).2 = none := by
  have happ : ∀ v : List (Option Violation), (appendViolations vl v).1 = vl →
      (appendViolations vl v).2 = none := by
    intro v
    rw [appendViolations_eq]
    dsimp only
    intro h1
    have := List.append_right_eq_self.1 h1
    simp [this]
  cases f with
  | message d m =>
    cases hd : d.Required
    · simp [fieldStep, hd]
    · simp only [fieldStep, hd, if_true, verifyMessage_eq_append] at h ⊢
      have := List.append_right_eq_self.1 h
      simp [this]
  | messageList d ms =>
    cases hd : d.Required
    · simp [fieldStep, hd]
    · simp only [fieldStep, hd, if_true] at h ⊢
      rw [listLoop_of_quiet ms ((listLoop_fst_eq_self_iff ms vl).1 h) vl]
  | string d s => exact happ _ h
  | int32 d i => rfl
  | int64 d i => exact happ _ h
  | other d k => rfl

/-- The fields loop returns the list it started from exactly when the first
field appends nothing and the loop over the other fields returns that list. -/
theorem fieldsLoop_cons_eq_self_iff (vl : List Violation) (f : Field) (rest : List Field) :
    fieldsLoop vl (f :: rest) = vl ↔
      (fieldStep vl f).1 = vl ∧ fieldsLoop vl rest = vl := by
  rw [fieldsLoop_cons]
  have hsnd := fieldStep_snd_of_fst_eq vl f
  obtain ⟨⟨t, ht⟩, -⟩ := fieldStep_spec vl f
  rcases hs : fieldStep vl f with ⟨vl1, e⟩
  rw [hs] at hsnd ht
  simp only at hsnd ht ⊢
  cases e with
  | some err =>
    constructor
    · intro h; exact absurd (hsnd h) (by simp)
    · intro h; exact h.1
  | none =>
    constructor
    · intro h
      change fieldsLoop vl1 rest = vl at h
      obtain ⟨u, hu⟩ := fieldsLoop_extends rest vl1
      have h1 : vl1 = vl := by
        rw [hu, ht, List.append_assoc] at h
        have := List.append_right_eq_self.1 h
        rw [ht, (List.append_eq_nil.1 this).1, List.append_nil]
      exact ⟨h1, by rw [h1] at h; exact h⟩
    · rintro ⟨h1, h2⟩
      show fieldsLoop vl1 rest = vl
      rw [h1]; exact h2

theorem appendViolations_single_fst_eq_self_iff (vl : List Violation)
    (o : Option Violation) : (appendViolations vl [o]).1 = vl ↔ o = none := by
  cases o with
  | none => simp [appendViolations_none]
  | some val => simp [appendViolations_some]

mutual
/-- The result of `GetViolations` is empty exactly for the violation-free
messages. -/
theorem GetViolations_eq_nil_iff : ∀ m : Message,
    GetViolations m = [] ↔ violationFree m = true
  | .mk fullName isValid fields => by
    rw [GetViolations_mk, violationFree]
    exact fieldsLoop_eq_self_iff fields []
/-- The fields loop returns the list it started from exactly when no field of
the list produces a violation. -/
theorem fieldsLoop_eq_self_iff : ∀ (fields : List Field) (vl : List Violation),
    fieldsLoop vl fields = vl ↔ fieldsViolationFree fields = true
  | [], vl => by simp [fieldsLoop_nil, fieldsViolationFree]
  | .message d m :: rest, vl => by
    rw [fieldsLoop_cons_eq_self_iff, fieldsLoop_eq_self_iff rest vl, fieldsViolationFree]
    have hm := GetViolations_eq_nil_iff m
    cases hd : d.Required
    · simp [fieldStep, hd]
    · simp [fieldStep, hd, verifyMessage_eq_append, messageViolations_eq_nil_iff, hm]
  | .messageList d ms :: rest, vl => by
    rw [fieldsLoop_cons_eq_self_iff, fieldsLoop_eq_self_iff rest vl, fieldsViolationFree]
    have hms := elements_quiet_iff ms
    cases hd : d.Required
    · simp [fieldStep, hd]
    · simp [fieldStep, hd, listLoop_fst_eq_self_iff, hms]
  | .string d s :: rest, vl => by
    rw [fieldsLoop_cons_eq_self_iff, fieldsLoop_eq_self_iff rest vl, fieldsViolationFree]
    simp [fieldStep, appendViolations_single_fst_eq_self_iff, stringViolation_eq_none_iff]
  | .int32 d i :: rest, vl => by
    rw [fieldsLoop_cons_eq_self_iff, fieldsLoop_eq_self_iff rest vl, fieldsViolationFree]
    simp [fieldStep]
  | .int64 d i :: rest, vl => by
    rw [fieldsLoop_cons_eq_self_iff, fieldsLoop_eq_self_iff rest vl, fieldsViolationFree]
    simp [fieldStep, appendViolations_single_fst_eq_self_iff, int64Violation_eq_none_iff]
  | .other d k :: rest, vl => by
    rw [fieldsLoop_cons_eq_self_iff, fieldsLoop_eq_self_iff rest vl, fieldsViolationFree]
    simp [fieldStep]
/-- For every element `verifyMessage` appends nothing exactly when every
element is present and violation-free. -/
theorem elements_quiet_iff : ∀ es : List Message,
    (∀ e ∈ es, messageViolations e = []) ↔ elementsViolationFree es = true
  | [] => by simp [elementsViolationFree]
  | e :: es => by
    have he := GetViolations_eq_nil_iff e
    have hes := elements_quiet_iff es
    rw [elementsViolationFree, List.forall_mem_cons, hes, messageViolations_eq_nil_iff, he]
    simp
end

theorem fieldsLoop_cons_le (vl : List Violation) (f : Field) (rest : List Field) (n : Nat)
    (hvl : vl.length ≤ 3) (hstep : (fieldStep vl f).1.length ≤ n)
    (hrest : ∀ vl1 : List Violation, vl1.length ≤ 3 → (fieldsLoop vl1 rest).length ≤ n) :
    (fieldsLoop vl (f :: rest)).length ≤ n := by
  rw [fieldsLoop_cons]
  have hle := fieldStep_le vl f hvl
  rcases hs : fieldStep vl f with ⟨vl1, e⟩
  rw [hs] at hle hstep
  cases e with
  | some err => exact hstep
  | none => exact hrest vl1 (hle rfl)

theorem appendViolations_single_length_le (vl : List Violation) (o : Option Violation)
    (hvl : vl.length ≤ 3) : (appendViolations vl [o]).1.length ≤ 4 := by
  cases o with
  | none => rw [appendViolations_none]; simp only; omega
  | some val =>
    rw [appendViolations_some]
    simp only [List.length_append, List.length_cons, List.length_nil]
    omega

theorem messageViolations_length_le (m : Message)
    (h : (GetViolations m).length ≤ 4 + 3 * requiredDepth m) :
    (messageViolations m).length ≤
      1 + 3 * (if m.IsValid = true then requiredDepth m + 1 else 0) := by
  unfold messageViolations
  cases m.IsValid
  · simp
  · simp only [if_true]; omega

mutual
/-- The number of violations that `GetViolations` returns is at most 4 plus
3 for each level of present required nested messages. -/
theorem GetViolations_length_le : ∀ m : Message,
    (GetViolations m).length ≤ 4 + 3 * requiredDepth m
  | .mk fullName isValid fields => by
    rw [GetViolations_mk, requiredDepth]
    exact fieldsLoop_length_le fields [] (by simp)
/-- The bound for the fields loop started from at most three violations. -/
theorem fieldsLoop_length_le : ∀ (fields : List Field) (vl : List Violation),
    vl.length ≤ 3 → (fieldsLoop vl fields).length ≤ 4 + 3 * fieldsDepth fields
  | [], vl, hvl => by rw [fieldsLoop_nil]; omega
  | .message d m :: rest, vl, hvl => by
    have hm := messageViolations_length_le m (GetViolations_length_le m)
    have hrest := fieldsLoop_length_le rest
    rw [fieldsDepth]
    apply fieldsLoop_cons_le vl _ rest _ hvl
    · cases hd : d.Required
      · simp only [fieldStep, hd]
        simp only [Bool.false_eq_true, if_false]
        omega
      · simp only [fieldStep, hd, if_true, verifyMessage_eq_append, List.length_append,
          true_and]
        have : 3 * (if m.IsValid = true then requiredDepth m + 1 else 0) ≤
            3 * max (if m.IsValid = true then requiredDepth m + 1 else 0)
              (fieldsDepth rest) := Nat.mul_le_mul_left 3 (le_max_left _ _)
        omega
    · intro vl1 h1
      have := hrest vl1 h1
      have : 3 * fieldsDepth rest ≤
          3 * max (if d.Required = true ∧ m.IsValid = true then requiredDepth m + 1 else 0)
            (fieldsDepth rest) := Nat.mul_le_mul_left 3 (le_max_right _ _)
      omega
  | .messageList d ms :: rest, vl, hvl => by
    have hms := elements_length_le ms vl hvl
    have hrest := fieldsLoop_length_le rest
    rw [fieldsDepth]
    apply fieldsLoop_cons_le vl _ rest _ hvl
    · cases hd : d.Required
      · simp only [fieldStep, hd]
        simp only [Bool.false_eq_true, if_false]
        omega
      · simp only [fieldStep, hd, if_true]
        have : 3 * elementsDepth ms ≤ 3 * max (elementsDepth ms) (fieldsDepth rest) :=
          Nat.mul_le_mul_left 3 (le_max_left _ _)
        omega
    · intro vl1 h1
      have := hrest vl1 h1
      have : 3 * fieldsDepth rest ≤
          3 * max (if d.Required = true then elementsDepth ms else 0)
            (fieldsDepth rest) := Nat.mul_le_mul_left 3 (le_max_right _ _)
      omega
  | .string d s :: rest, vl, hvl => by
    have hrest := fieldsLoop_length_le rest
    rw [fieldsDepth]
    apply fieldsLoop_cons_le vl _ rest _ hvl
    · have := appendViolations_single_length_le vl (stringViolation d s) hvl
      simp only [fieldStep]; omega
    · exact hrest
  | .int32 d i :: rest, vl, hvl => by
    have hrest := fieldsLoop_length_le rest
    rw [fieldsDepth]
    apply fieldsLoop_cons_le vl _ rest _ hvl
    · simp only [fieldStep]; omega
    · exact hrest
  | .int64 d i :: rest, vl, hvl => by
    have hrest := fieldsLoop_length_le rest
    rw [fieldsDepth]
    apply fieldsLoop_cons_le vl _ rest _ hvl
    · have := appendViolations_single_length_le vl (int64Violation d i) hvl
      simp only [fieldStep]; omega
    · exact hrest
  | .other d k :: rest, vl, hvl => by
    have hrest := fieldsLoop_length_le rest
    rw [fieldsDepth]
    apply fieldsLoop_cons_le vl _ rest _ hvl
    · simp only [fieldStep]; omega
    · exact hrest
/-- The bound for the loop over the elements of a required list, started
from at most three violations. -/
theorem elements_length_le : ∀ (es : List Message) (vl : List Violation),
    vl.length ≤ 3 → (listLoop vl es).1.length ≤ 4 + 3 * elementsDepth es
  | [], vl, hvl => by simp only [listLoop]; omega
  | e :: es, vl, hvl => by
    have he := messageViolations_length_le e (GetViolations_length_le e)
    have hes := elements_length_le es
    rw [listLoop_cons, elementsDepth]
    have h1 : 3 * (if e.IsValid = true then requiredDepth e + 1 else 0) ≤
        3 * max (if e.IsValid = true then requiredDepth e + 1 else 0) (elementsDepth es) :=
      Nat.mul_le_mul_left 3 (le_max_left _ _)
    have h2 : 3 * elementsDepth es ≤
        3 * max (if e.IsValid = true then requiredDepth e + 1 else 0) (elementsDepth es) :=
      Nat.mul_le_mul_left 3 (le_max_right _ _)
    generalize (if e.IsValid = true then requiredDepth e + 1 else 0) = D at he h1 h2 ⊢
    by_cases hc : messageViolations e ≠ [] ∧ (vl ++ messageViolations e).length > 3
    · rw [if_pos hc]
      simp only [List.length_append]
      omega
    · rw [if_neg hc]
      have := hes _ (soft_cap_length vl _ hvl hc)
      omega
end

/-- A value that does not violate the string rule with the allow-list test
of the code does not violate the rule as the specification words it. -/
theorem specStringFieldViolates_of_not (desc : FieldDescriptor) (v : String)
    (h : stringFieldViolates desc v = false) : specStringFieldViolates desc v = false := by
  unfold stringFieldViolates at h
  unfold specStringFieldViolates
  by_cases hv : v = ""
  · simpa [hv] using h
  · cases hA : desc.Allowed with
    | none => simpa [hv, hA] using h
    | some allowed =>
      cases allowed with
      | nil => simp [hv, hA] at h
      | cons a l => simpa [hv, hA] using h

mutual
/-- A message that is violation-free with the allow-list test of the code is
violation-free in the words of the specification. -/
theorem specViolationFree_of_violationFree : ∀ m : Message,
    violationFree m = true → specViolationFree m = true
  | .mk fullName isValid fields => by
    rw [violationFree, specViolationFree]
    exact specFieldsViolationFree_of fields
/-- The same for a list of fields. -/
theorem specFieldsViolationFree_of : ∀ fields : List Field,
    fieldsViolationFree fields = true → specFieldsViolationFree fields = true
  | [] => by simp [specFieldsViolationFree]
  | .message d m :: rest => by
    have hm := specViolationFree_of_violationFree m
    have hrest := specFieldsViolationFree_of rest
    rw [fieldsViolationFree, specFieldsViolationFree]
    simp only [Bool.and_eq_true, Bool.or_eq_true, Bool.not_eq_true']
    rintro ⟨h1, h2⟩
    exact ⟨h1.imp id (fun h => ⟨h.1, hm h.2⟩), hrest h2⟩
  | .messageList d ms :: rest => by
    have hms := specElementsViolationFree_of ms
    have hrest := specFieldsViolationFree_of rest
    rw [fieldsViolationFree, specFieldsViolationFree]
    simp only [Bool.and_eq_true, Bool.or_eq_true, Bool.not_eq_true']
    rintro ⟨h1, h2⟩
    exact ⟨h1.imp id hms, hrest h2⟩
  | .string d s :: rest => by
    have hrest := specFieldsViolationFree_of rest
    rw [fieldsViolationFree, specFieldsViolationFree]
    simp only [Bool.and_eq_true, Bool.not_eq_true']
    rintro ⟨h1, h2⟩
    exact ⟨specStringFieldViolates_of_not d s h1, hrest h2⟩
  | .int32 d i :: rest => by
    have hrest := specFieldsViolationFree_of rest
    rw [fieldsViolationFree, specFieldsViolationFree]
    exact hrest
  | .int64 d i :: rest => by
    have hrest := specFieldsViolationFree_of rest
    rw [fieldsViolationFree, specFieldsViolationFree]
    simp only [Bool.and_eq_true, Bool.not_eq_true']
    rintro ⟨h1, h2⟩
    exact ⟨h1, hrest h2⟩
  | .other d k :: rest => by
    have hrest := specFieldsViolationFree_of rest
    rw [fieldsViolationFree, specFieldsViolationFree]
    exact hrest
/-- The same for the elements of a required list. -/
theorem specElementsViolationFree_of : ∀ es : List Message,
    elementsViolationFree es = true → specElementsViolationFree es = true
  | [] => by simp [specElementsViolationFree]
  | e :: es => by
    have he := specViolationFree_of_violationFree e
    have hes := specElementsViolationFree_of es
    rw [elementsViolationFree, specElementsViolationFree]
    simp only [Bool.and_eq_true]
    rintro ⟨⟨h1, h2⟩, h3⟩
    exact ⟨⟨h1, he h2⟩, hes h3⟩
end

/-! ## The claims, continued -/

/-- C11: early termination. When `GetViolations` of the message restricted
to its first `k` fields has more than three entries, `GetViolations` of the
whole message is that list, whatever the fields after the first `k` are. -/
theorem early_termination (fullName : String) (isValid : Bool) (fields : List Field)
    (k : Nat)
    (h : (GetViolations (.mk fullName isValid (fields.take k))).length > 3) :
    GetViolations (.mk fullName isValid fields) =
      GetViolations (.mk fullName isValid (fields.take k)) := by
  rw [GetViolations_mk] at h
  rw [GetViolations_mk, GetViolations_mk]
  conv_lhs => rw [← List.take_append_drop k fields]
  exact fieldsLoop_append_of_gt _ _ [] (by simp) h

theorem early_termination_witness :
    (GetViolations (.mk "pkg.Req" true (scalarMessage.Fields.take 6))).length > 3 ∧
      GetViolations (.mk "pkg.Req" true scalarMessage.Fields) =
        GetViolations (.mk "pkg.Req" true (scalarMessage.Fields.take 6)) ∧
      (scalarMessage.Fields.drop 6).filterMap scalarRule =
        [{ Field := "pkg.Req.total", Description := "mandatory field not provided" }] :=
  ⟨by decide, early_termination "pkg.Req" true scalarMessage.Fields 6 (by decide),
   by decide⟩

/-- C13, as the claim states it, fails: with the allow-list extension set to
an empty list and the bounds 2 and 5, the value "abc" is within the bounds and
still gets the "not allowed" violation; no length check is made. -/
theorem empty_allowed_list_counterexample :
    descEmptyAllowed.Allowed = some [] ∧ "abc" ≠ "" ∧
      ¬ ((descEmptyAllowed.Lmin ≠ 0 ∧ (len "abc" : Int) < descEmptyAllowed.Lmin) ∨
          (descEmptyAllowed.Lmax ≠ 0 ∧ (len "abc" : Int) > descEmptyAllowed.Lmax)) ∧
      stringViolation descEmptyAllowed "abc" =
        some { Field := "code", Description := "Value (abc) not allowed" } ∧
      GetViolations (.mk "pkg.Req" true [.string descEmptyAllowed "abc"]) =
        [{ Field := "code", Description := "Value (abc) not allowed" }] := by
  decide

/-- C13, amended: an allow-list counts as configured exactly when the
extension is set. For a non-empty value, a field whose allow-list is not set
gets no "not allowed" violation and the length check is applied; a field whose
allow-list is set to the empty list gets the violation "Value (v) not allowed"
whatever the length bounds are. -/
theorem allowed_list_configured_when_set (desc : FieldDescriptor) (v : String)
    (hv : v ≠ "") :
    (desc.Allowed = none →
        stringViolation desc v =
          (if (desc.Lmin ≠ 0 ∧ (len v : Int) < desc.Lmin) ∨
              (desc.Lmax ≠ 0 ∧ (len v : Int) > desc.Lmax) then
             some { Field := desc.Name,
                    Description := "Invalid Length, have (" ++ toString (len v) ++
                      "), want min(" ++ toString desc.Lmin ++ "), max (" ++
                      toString desc.Lmax ++ ")" }
           else none)) ∧
      (desc.Allowed = some [] →
        stringViolation desc v =
          some { Field := desc.Name,
                 Description := "Value (" ++ v ++ ") not allowed" }) := by
  have hlen : len v ≠ 0 := fun h => hv ((len_eq_zero_iff v).1 h)
  constructor
  · intro hnone
    unfold stringViolation
    rw [hnone]
    simp only [hlen, and_false, if_false, ne_eq, not_false_eq_true, if_true]
  · intro hset
    unfold stringViolation
    rw [hset]
    simp [hlen, searchSlice, notAllowedViolation]

theorem allowed_list_configured_when_set_witness :
    ("x" ≠ "" ∧ descCode.Allowed = none ∧ descEmptyAllowed.Allowed = some []) ∧
      stringViolation descCode "x" =
        some { Field := "code",
               Description := "Invalid Length, have (1), want min(2), max (5)" } ∧
      stringViolation descEmptyAllowed "x" =
        some { Field := "code", Description := "Value (x) not allowed" } :=
  ⟨by decide,
   (allowed_list_configured_when_set descCode "x" (by decide)).1 rfl,
   (allowed_list_configured_when_set descEmptyAllowed "x" (by decide)).2 rfl⟩

/-- C14, as the claim states it, fails: for a required list of two present
elements with four violations each, `GetViolations` returns the four of the
first element only, not the concatenation of the two. -/
theorem required_list_concatenation_counterexample :
    descReqAddresses.Required = true ∧ emptyAddress.IsValid = true ∧
      (GetViolations emptyAddress ++ GetViolations emptyAddress).length = 8 ∧
      GetViolations (.mk "pkg.Req" true
          [.messageList descReqAddresses [emptyAddress, emptyAddress]]) =
        GetViolations emptyAddress ∧
      GetViolations (.mk "pkg.Req" true
          [.messageList descReqAddresses [emptyAddress, emptyAddress]]) ≠
        GetViolations emptyAddress ++ GetViolations emptyAddress := by
  decide

/-- C14, amended: for a message whose only field is a required list of
present messages `e1..en`, `GetViolations` returns the concatenation
`GetViolations(e1) ++ ... ++ GetViolations(ek)` in element order, where `k` is
the first count of elements whose concatenation has more than three entries,
and `k = n` when there is none; when the concatenation over all elements has at
most three entries the result is that whole concatenation. -/
theorem required_list_spliced_until_full (fullName : String) (isValid : Bool)
    (desc : FieldDescriptor) (es : List Message)
    (hreq : desc.Required = true) (hpresent : ∀ e ∈ es, e.IsValid = true) :
    (∃ k, k ≤ es.length ∧
        GetViolations (.mk fullName isValid [.messageList desc es]) =
          ((es.take k).map GetViolations).flatten ∧
        (k < es.length → (((es.take k).map GetViolations).flatten).length > 3) ∧
        (∀ j, j < k → (((es.take j).map GetViolations).flatten).length ≤ 3)) ∧
      (((es.map GetViolations).flatten).length ≤ 3 →
        GetViolations (.mk fullName isValid [.messageList desc es]) =
          (es.map GetViolations).flatten) := by
  have hmap : ∀ j, (es.take j).map messageViolations = (es.take j).map GetViolations :=
    fun j => map_messageViolations_of_valid _
      (fun e he => hpresent e (List.mem_of_mem_take he))
  obtain ⟨k, hk, heq, hgt, hle⟩ := listLoop_take es [] (by simp)
  rw [← GetViolations_list_only fullName isValid desc es hreq] at heq hgt
  simp only [List.nil_append, hmap] at heq hle
  have hfirst : ∃ k, k ≤ es.length ∧
      GetViolations (.mk fullName isValid [.messageList desc es]) =
        ((es.take k).map GetViolations).flatten ∧
      (k < es.length → (((es.take k).map GetViolations).flatten).length > 3) ∧
      (∀ j, j < k → (((es.take j).map GetViolations).flatten).length ≤ 3) :=
    ⟨k, hk, heq, fun hlt => by rw [← heq]; exact hgt hlt, hle⟩
  refine ⟨hfirst, ?_⟩
  intro hall
  by_cases hlt : k < es.length
  · have h1 := hgt hlt
    rw [heq] at h1
    have h2 : ((es.map GetViolations).flatten).length =
        (((es.take k).map GetViolations).flatten).length +
          (((es.drop k).map GetViolations).flatten).length := by
      conv_lhs => rw [← List.take_append_drop k es]
      simp
    omega
  · have hk2 : es.take k = es := List.take_of_length_le (by omega)
    rw [heq, hk2]

theorem required_list_spliced_until_full_witness :
    (descReqAddresses.Required = true ∧
      ∀ e ∈ [halfAddress, fullAddress, halfAddress, halfAddress], e.IsValid = true) ∧
      (∃ k, k ≤ [halfAddress, fullAddress, halfAddress, halfAddress].length ∧
        GetViolations (.mk "pkg.Req" true
            [.messageList descReqAddresses
              [halfAddress, fullAddress, halfAddress, halfAddress]]) =
          (([halfAddress, fullAddress, halfAddress, halfAddress].take k).map
            GetViolations).flatten ∧
        (k < [halfAddress, fullAddress, halfAddress, halfAddress].length →
          ((([halfAddress, fullAddress, halfAddress, halfAddress].take k).map
            GetViolations).flatten).length > 3) ∧
        (∀ j, j < k →
          ((([halfAddress, fullAddress, halfAddress, halfAddress].take j).map
            GetViolations).flatten).length ≤ 3)) ∧
      GetViolations (.mk "pkg.Req" true
          [.messageList descReqAddresses
            [halfAddress, fullAddress, halfAddress, halfAddress]]) =
        [ ⟨"pkg.Address.street", "mandatory field not provided"⟩,
          ⟨"pkg.Address.city", "mandatory field not provided"⟩,
          ⟨"pkg.Address.street", "mandatory field not provided"⟩,
          ⟨"pkg.Address.city", "mandatory field not provided"⟩ ] :=
  ⟨by decide,
   (required_list_spliced_until_full "pkg.Req" true descReqAddresses
     [halfAddress, fullAddress, halfAddress, halfAddress] rfl (by decide)).1,
   by decide⟩

/-- C15: fields of a kind other than message, string and integer are
skipped. A field of a kind without a case in the switch (boolean, enum,
floating point, bytes, group, unsigned, signed and fixed integers) yields no
violation whatever its required flag is, and removing from a message any
fields whose kind is not message, string or 64-bit integer leaves the result
of `GetViolations` unchanged. -/
theorem unsupported_kinds_skipped (fullName : String) (isValid : Bool)
    (fields : List Field) (keep : Field → Bool) (desc : FieldDescriptor) (kind : OtherKind)
    (hremoved : ∀ f ∈ fields, keep f = false →
      f.Kind ≠ Kind.MessageKind ∧ f.Kind ≠ Kind.StringKind ∧ f.Kind ≠ Kind.Int64Kind) :
    GetViolations (.mk fullName isValid [.other desc kind]) = [] ∧
      GetViolations (.mk fullName isValid (fields.filter keep)) =
        GetViolations (.mk fullName isValid fields) := by
  constructor
  · simp [GetViolations, fieldsLoop]
  · rw [GetViolations_mk, GetViolations_mk]
    exact fieldsLoop_filter keep fields
      (fun f hf hk => fieldStep_of_no_rule f (hremoved f hf hk)) []

theorem unsupported_kinds_skipped_witness :
    (∀ f ∈ mixedMessage.Fields, hasCase f = false →
      f.Kind ≠ Kind.MessageKind ∧ f.Kind ≠ Kind.StringKind ∧ f.Kind ≠ Kind.Int64Kind) ∧
      mixedMessage.Fields.filter hasCase =
        [.string descReqName "", .int64 descCount 20] ∧
      GetViolations (.mk "pkg.Req" true (mixedMessage.Fields.filter hasCase)) =
        GetViolations (.mk "pkg.Req" true mixedMessage.Fields) ∧
      GetViolations (.mk "pkg.Req" true [.other descReqName .BoolKind]) = [] :=
  ⟨by decide, rfl,
   (unsupported_kinds_skipped "pkg.Req" true mixedMessage.Fields hasCase descReqName
     .BoolKind (by decide)).2,
   (unsupported_kinds_skipped "pkg.Req" true mixedMessage.Fields hasCase descReqName
     .BoolKind (by decide)).1⟩

/-- C16: `appendViolations` never drops or reorders entries: the list it
returns is `vl` followed by the non-null entries of the batch in their order,
whatever the length of `vl` and of the batch. -/
theorem appendViolations_keeps_all (vl : List Violation) (v : List (Option Violation)) :
    (appendViolations vl v).1 = vl ++ v.reduceOption ∧
      (appendViolations vl v).1 = vl ++ v.filterMap id := by
  have h : (appendViolations vl v).1 = vl ++ v.reduceOption :=
    appendViolationsLoop_fst v vl none
  exact ⟨h, h⟩

/-- C17: `appendViolations` returns an error exactly when the batch has a
non-null entry and the returned list is longer than 3. A null entry or an
empty batch gives no error, also on a list longer than 3; one non-null entry
gives an error on a list of length 3 and none on a list of length 2. -/
theorem appendViolations_overflow_iff (vl : List Violation) (v : List (Option Violation))
    (val : Violation) :
    ((appendViolations vl v).2 ≠ none ↔
        (∃ x, some x ∈ v) ∧ (appendViolations vl v).1.length > 3) ∧
      (appendViolations vl [none]).2 = none ∧
      (appendViolations vl []).2 = none ∧
      (vl.length = 3 → (appendViolations vl [some val]).2 ≠ none) ∧
      (vl.length = 2 → (appendViolations vl [some val]).2 = none) := by
  have hex : (∃ x, some x ∈ v) ↔ v.reduceOption ≠ [] := by
    constructor
    · rintro ⟨x, hx⟩ h0
      have : x ∈ v.reduceOption := List.reduceOption_mem_iff.2 hx
      rw [h0] at this
      exact absurd this (List.not_mem_nil x)
    · intro h0
      obtain ⟨x, hx⟩ := List.exists_mem_of_ne_nil _ h0
      exact ⟨x, List.reduceOption_mem_iff.1 hx⟩
  refine ⟨?_, rfl, rfl, ?_, ?_⟩
  · rw [appendViolations_eq, hex]
    dsimp only
    split_ifs with h
    · exact ⟨fun _ => h, fun _ => by simp⟩
    · constructor
      · intro h0; exact absurd rfl h0
      · intro h1; exact absurd h1 h
  · intro h3
    rw [appendViolations_some]
    simp [h3]
  · intro h2
    rw [appendViolations_some]
    simp [h2]

theorem appendViolations_overflow_iff_witness :
    ((appendViolations
          [⟨"a", "1"⟩, ⟨"b", "2"⟩, ⟨"c", "3"⟩, ⟨"d", "4"⟩, ⟨"e", "5"⟩] [none]).2 = none ∧
      (appendViolations
          [⟨"a", "1"⟩, ⟨"b", "2"⟩, ⟨"c", "3"⟩, ⟨"d", "4"⟩, ⟨"e", "5"⟩] []).2 = none) ∧
      ([⟨"a", "1"⟩, ⟨"b", "2"⟩, ⟨"c", "3"⟩] : List Violation).length = 3 ∧
      (appendViolations [⟨"a", "1"⟩, ⟨"b", "2"⟩, ⟨"c", "3"⟩] [some ⟨"d", "4"⟩]).2 ≠ none ∧
      ([⟨"a", "1"⟩, ⟨"b", "2"⟩] : List Violation).length = 2 ∧
      (appendViolations [⟨"a", "1"⟩, ⟨"b", "2"⟩] [some ⟨"d", "4"⟩]).2 = none :=
  ⟨by decide, rfl,
   (appendViolations_overflow_iff [⟨"a", "1"⟩, ⟨"b", "2"⟩, ⟨"c", "3"⟩] []
     ⟨"d", "4"⟩).2.2.2.1 rfl,
   rfl,
   (appendViolations_overflow_iff [⟨"a", "1"⟩, ⟨"b", "2"⟩] [] ⟨"d", "4"⟩).2.2.2.2 rfl⟩

/-- C18: the length of the result is bounded through the nesting depth: a
message whose chain of present required messages (elements of required lists
included) has depth at most `d` gets at most `4 + 3 * d` violations, at most 4
when it has no present required nested message, and a message of depth 1 with
7 violations exists. -/
theorem length_bounded_by_depth :
    (∀ (m : Message) (d : Nat), requiredDepth m ≤ d →
        (GetViolations m).length ≤ 4 + 3 * d) ∧
      (∀ m : Message, requiredDepth m = 0 → (GetViolations m).length ≤ 4) ∧
      (∃ m : Message, requiredDepth m = 1 ∧ (GetViolations m).length = 7) := by
  refine ⟨?_, ?_, ⟨nestedMessage, by decide, by decide⟩⟩
  · intro m d hd
    have := GetViolations_length_le m
    have : 3 * requiredDepth m ≤ 3 * d := Nat.mul_le_mul_left 3 hd
    omega
  · intro m h0
    have := GetViolations_length_le m
    rw [h0] at this
    simpa using this

theorem length_bounded_by_depth_witness :
    requiredDepth nestedMessage ≤ 1 ∧
      (GetViolations nestedMessage).length ≤ 4 + 3 * 1 ∧
      (GetViolations nestedMessage).length = 7 ∧
      requiredDepth scalarMessage = 0 ∧ (GetViolations scalarMessage).length ≤ 4 :=
  ⟨by decide, length_bounded_by_depth.1 nestedMessage 1 (by decide), by decide,
   by decide, length_bounded_by_depth.2.1 scalarMessage (by decide)⟩

/-- C19: a required list-of-message field without elements yields no
violation: a message whose only field is such a list has the empty result. -/
theorem required_empty_list_no_violation (fullName : String) (isValid : Bool)
    (desc : FieldDescriptor) (hreq : desc.Required = true) :
    GetViolations (.mk fullName isValid [.messageList desc []]) = [] := by
  simp [GetViolations, fieldsLoop, listLoop, hreq]

theorem required_empty_list_no_violation_witness :
    descReqAddresses.Required = true ∧
      GetViolations (.mk "pkg.Req" true [.messageList descReqAddresses []]) = [] :=
  ⟨rfl, required_empty_list_no_violation "pkg.Req" true descReqAddresses rfl⟩

end Validator
